import Mathlib

/-!
Shallow embedding of the singly linked stack from `src/first.rs` and
`src/second.rs`.

Rust `&mut self` methods are modelled as pure state transformers: a method
that mutates the receiver and returns `r` becomes a Lean function returning
`r × List` (the returned value paired with the post-state).  `Box<Node>` is
pure ownership indirection, so a `Box<Node>` is embedded as the `Node` itself.
Rust references (`&T`, `&mut T`) handed out by `peek`, `iter`, `iter_mut` are
embedded as the referenced values; a write through the `&mut T` returned by
`peek_mut` is a separate state transformer (`peek_mut_write`).
-/

namespace First

mutual

/-- `enum Link { Empty, More(Box<Node>) }` from `first.rs`. -/
inductive Link : Type where
  | Empty : Link
  | More : Node → Link

/-- `struct Node { elem: i32, next: Link }` from `first.rs`; `i32` is
embedded as `Int` (no arithmetic is ever performed on elements, so width
does not matter). -/
inductive Node : Type where
  | mk (elem : Int) (next : Link) : Node

end

def Node.elem : Node → Int
  | .mk e _ => e

def Node.next : Node → Link
  | .mk _ n => n

/-- `pub struct List { head: Link }` -/
structure List where
  head : Link

/-- `List::new` from `first.rs`. -/
def List.new : List :=
  { head := Link.Empty }

/-- `List::push` from `first.rs`: the new node's `next` takes the old head
(`mem::replace(&mut self.head, Link::Empty)`), then head becomes the new
node. -/
def List.push (self : List) (elem : Int) : List :=
  { head := Link.More (Node.mk elem self.head) }

/-- `List::pop` from `first.rs`: `mem::replace` the head with `Empty`, then
on `Empty` return `None` (head stays `Empty`), on `More(node)` set
`head = node.next` and return `Some(node.elem)`. -/
def List.pop (self : List) : Option Int × List :=
  match self.head with
  | Link.Empty => (none, { head := Link.Empty })
  | Link.More node => (some node.elem, { head := node.next })

/-- One iteration of the `while let` loop in `impl Drop for List`
(`first.rs`): `cur_link = mem::replace(&mut boxed_node.next, Link::Empty)`;
the detached node is released.  On `Empty` the loop does not run.  This
function is not recursive: the whole teardown is its iteration. -/
def dropStep : Link → Link
  | Link.Empty => Link.Empty
  | Link.More node => node.next

end First

namespace Second

/-- `struct Node<T> { elem: T, next: Link<T> }` with
`type Link<T> = Option<Box<Node<T>>>` from `second.rs`. -/
inductive Node (T : Type) : Type where
  | mk (elem : T) (next : Option (Node T)) : Node T

def Node.elem {T : Type} : Node T → T
  | .mk e _ => e

def Node.next {T : Type} : Node T → Option (Node T)
  | .mk _ n => n

/-- `type Link<T> = Option<Box<Node<T>>>` -/
abbrev Link (T : Type) := Option (Node T)

/-- `pub struct List<T> { head: Link<T> }` -/
structure List (T : Type) where
  head : Link T

/-- `List::new` from `second.rs`. -/
def List.new {T : Type} : List T :=
  { head := none }

/-- `List::push` from `second.rs`: the new node's `next` is
`self.head.take()`, then head becomes the new node. -/
def List.push {T : Type} (self : List T) (elem : T) : List T :=
  { head := some (Node.mk elem self.head) }

/-- `List::pop` from `second.rs`: `self.head.take().map(|node| {
self.head = node.next; node.elem })` — on `None` the head stays `None` and
`None` is returned; on `Some(node)` the head becomes `node.next` and
`Some(node.elem)` is returned. -/
def List.pop {T : Type} (self : List T) : Option T × List T :=
  match self.head with
  | none => (none, { head := none })
  | some node => (some node.elem, { head := node.next })

/-- `List::peek` from `second.rs`: `self.head.as_ref().map(|node| &node.elem)`. -/
def List.peek {T : Type} (self : List T) : Option T :=
  self.head.map Node.elem

/-- `List::peek_mut` from `second.rs`, as a read:
`self.head.as_mut().map(|node| &mut node.elem)` exposes the head element. -/
def List.peek_mut {T : Type} (self : List T) : Option T :=
  self.head.map Node.elem

/-- The effect of writing `v` through the `&mut T` that `peek_mut` returns:
when `peek_mut` returned `Some`, the head node's `elem` field becomes `v`;
when it returned `None` there is no reference to write through and the list
is untouched. -/
def List.peek_mut_write {T : Type} (self : List T) (v : T) : List T :=
  match self.head with
  | none => self
  | some (Node.mk _ next) => { head := some (Node.mk v next) }

/-- `pub struct Iter<'a, T> { next: Option<&'a Node<T>> }` -/
structure Iter (T : Type) where
  next : Option (Node T)

/-- `List::iter` from `second.rs`: `Iter { next: self.head.as_deref() }`. -/
def List.iter {T : Type} (self : List T) : Iter T :=
  { next := self.head }

/-- `Iterator::next` for `Iter` (`second.rs`): `self.next.map(|node| {
self.next = node.next.as_deref(); &node.elem })`. -/
def Iter.step {T : Type} (self : Iter T) : Option T × Iter T :=
  match self.next with
  | none => (none, self)
  | some node => (some node.elem, { next := node.next })

/-- `pub struct IterMut<'a, T> { next: Option<&'a mut Node<T>> }` -/
structure IterMut (T : Type) where
  next : Option (Node T)

/-- `List::iter_mut` from `second.rs`: `IterMut { next: self.head.as_deref_mut() }`. -/
def List.iter_mut {T : Type} (self : List T) : IterMut T :=
  { next := self.head }

/-- `Iterator::next` for `IterMut` (`second.rs`): `self.next.take().map(|node| {
self.next = node.next.as_deref_mut(); &mut node.elem })` — `take` leaves
`None` behind, so on exhaustion `next` is `None`. -/
def IterMut.step {T : Type} (self : IterMut T) : Option T × IterMut T :=
  match self.next with
  | none => (none, { next := none })
  | some node => (some node.elem, { next := node.next })

/-- `pub struct IntoIter<T>(List<T>)`; the field models the tuple field `.0`. -/
structure IntoIter (T : Type) where
  fst : List T

/-- `List::into_iter` from `second.rs`: `IntoIter(self)`. -/
def List.into_iter {T : Type} (self : List T) : IntoIter T :=
  { fst := self }

/-- `Iterator::next` for `IntoIter` (`second.rs`): `self.0.pop()`. -/
def IntoIter.step {T : Type} (self : IntoIter T) : Option T × IntoIter T :=
  ((self.fst.pop).1, { fst := (self.fst.pop).2 })

/-- One iteration of the `while let` loop in `impl<T> Drop for List<T>`
(`second.rs`): `cur_link = boxed_node.next.take()`; the detached node is
released.  On `None` the loop does not run.  This function is not
recursive: the whole teardown is its iteration. -/
def dropStep {T : Type} : Link T → Link T
  | none => none
  | some node => node.next

end Second

/-! ### Abstraction: the sequence of elements stored in a chain -/

mutual

/-- The elements held in a `first.rs` chain, head first. -/
def firstLinkElems : First.Link → List Int
  | First.Link.Empty => []
  | First.Link.More n => firstNodeElems n

/-- The elements held in one `first.rs` node and its successors. -/
def firstNodeElems : First.Node → List Int
  | First.Node.mk e next => e :: firstLinkElems next

end

/-- The elements held in a `second.rs` node chain, head first. -/
def secNodeElems {T : Type} : Second.Node T → List T
  | Second.Node.mk e none => [e]
  | Second.Node.mk e (some n) => e :: secNodeElems n

/-- The elements held in a `second.rs` link, head first. -/
def secLinkElems {T : Type} : Second.Link T → List T
  | none => []
  | some n => secNodeElems n

/-- The elements of a `second.rs` list, most recently pushed first. -/
def secElems {T : Type} (s : Second.List T) : List T :=
  secLinkElems s.head

/-- The elements of a `first.rs` list, most recently pushed first. -/
def firstElems (s : First.List) : List Int :=
  firstLinkElems s.head

/-- Number of nodes in a `second.rs` chain. -/
def secLen {T : Type} (l : Second.Link T) : Nat :=
  (secLinkElems l).length

/-! ### Operation sequences

Fuel-indexed runners: `fuel` bounds the number of calls, so each runner is
structurally recursive on the fuel; a run stops early as soon as the
operation reports the empty indicator, exactly as a caller looping on the
returned `Option` would. -/

/-- Push each element of `xs` in order, starting from `s`. -/
def secPushAll {T : Type} (s : Second.List T) (xs : List T) : Second.List T :=
  xs.foldl Second.List.push s

/-- Push each element of `xs` in order, starting from `s` (`first.rs`). -/
def firstPushAll (s : First.List) (xs : List Int) : First.List :=
  xs.foldl First.List.push s

/-- Call `pop` up to `fuel` times, collecting the yielded values and the
final state; stop at the first `none`. -/
def secPops {T : Type} : Nat → Second.List T → List T × Second.List T
  | 0, s => ([], s)
  | fuel + 1, s =>
    match s.pop with
    | (none, s') => ([], s')
    | (some x, s') =>
      let r := secPops fuel s'
      (x :: r.1, r.2)

/-- Call `pop` up to `fuel` times on a `first.rs` list, collecting the
yielded values and the final state; stop at the first `none`. -/
def firstPops : Nat → First.List → List Int × First.List
  | 0, s => ([], s)
  | fuel + 1, s =>
    match s.pop with
    | (none, s') => ([], s')
    | (some x, s') =>
      let r := firstPops fuel s'
      (x :: r.1, r.2)

/-- Call `Iter` `next` up to `fuel` times, collecting yields and final state. -/
def iterRun {T : Type} : Nat → Second.Iter T → List T × Second.Iter T
  | 0, it => ([], it)
  | fuel + 1, it =>
    match it.step with
    | (none, it') => ([], it')
    | (some x, it') =>
      let r := iterRun fuel it'
      (x :: r.1, r.2)

/-- Call `IterMut` `next` up to `fuel` times, collecting yields and final
state. -/
def iterMutRun {T : Type} : Nat → Second.IterMut T → List T × Second.IterMut T
  | 0, it => ([], it)
  | fuel + 1, it =>
    match it.step with
    | (none, it') => ([], it')
    | (some x, it') =>
      let r := iterMutRun fuel it'
      (x :: r.1, r.2)

/-- Call `IntoIter` `next` up to `fuel` times, collecting yields and final
state. -/
def intoIterRun {T : Type} : Nat → Second.IntoIter T → List T × Second.IntoIter T
  | 0, it => ([], it)
  | fuel + 1, it =>
    match it.step with
    | (none, it') => ([], it')
    | (some x, it') =>
      let r := intoIterRun fuel it'
      (x :: r.1, r.2)

/-- A call against the shared `new`/`push`/`pop` interface of the two
implementations, at element type `i32`. -/
inductive Op where
  | push (x : Int) : Op
  | pop : Op

/-- Run a sequence of operations against the `first.rs` list, recording the
result of every `pop`. -/
def runFirst : First.List → List Op → List (Option Int)
  | _, [] => []
  | s, Op.push x :: ops => runFirst (s.push x) ops
  | s, Op.pop :: ops => (s.pop).1 :: runFirst (s.pop).2 ops

/-- Run a sequence of operations against the `second.rs` list at `i32`,
recording the result of every `pop`. -/
def runSecond : Second.List Int → List Op → List (Option Int)
  | _, [] => []
  | s, Op.push x :: ops => runSecond (s.push x) ops
  | s, Op.pop :: ops => (s.pop).1 :: runSecond (s.pop).2 ops

/-! ### Abstraction lemmas -/

@[simp]
lemma secNode_elem_mk {T : Type} (e : T) (n : Second.Link T) :
    (Second.Node.mk e n).elem = e := rfl

@[simp]
lemma secNode_next_mk {T : Type} (e : T) (n : Second.Link T) :
    (Second.Node.mk e n).next = n := rfl

@[simp]
lemma secNodeElems_mk {T : Type} (e : T) (n : Second.Link T) :
    secNodeElems (Second.Node.mk e n) = e :: secLinkElems n := by
  cases n <;> simp [secNodeElems, secLinkElems]

@[simp]
lemma secElems_push {T : Type} (s : Second.List T) (x : T) :
    secElems (s.push x) = x :: secElems s := by
  simp [secElems, Second.List.push, secLinkElems]

@[simp]
lemma secPop_fst {T : Type} (s : Second.List T) :
    (s.pop).1 = (secElems s).head? := by
  obtain ⟨head⟩ := s
  cases head with
  | none => rfl
  | some node => cases node with
    | mk e next => simp [Second.List.pop, secElems, secLinkElems]

@[simp]
lemma secPop_snd {T : Type} (s : Second.List T) :
    secElems (s.pop).2 = (secElems s).tail := by
  obtain ⟨head⟩ := s
  cases head with
  | none => rfl
  | some node => cases node with
    | mk e next => simp [Second.List.pop, secElems, secLinkElems]

lemma secElems_nil_iff {T : Type} (s : Second.List T) :
    secElems s = [] ↔ s.head = none := by
  obtain ⟨head⟩ := s
  cases head with
  | none => simp [secElems, secLinkElems]
  | some node => cases node with
    | mk e next => simp [secElems, secLinkElems]

lemma secPops_drain {T : Type} :
    ∀ (fuel : Nat) (s : Second.List T), secLen s.head ≤ fuel →
      secPops fuel s = (secElems s, ⟨none⟩) := by
  intro fuel
  induction fuel with
  | zero =>
    intro s h
    obtain ⟨head⟩ := s
    have : secElems ⟨head⟩ = [] := by
      have := List.length_eq_zero.mp (Nat.le_zero.mp h)
      simpa [secLen, secElems] using this
    have hh : head = none := (secElems_nil_iff ⟨head⟩).mp this
    subst hh
    rfl
  | succ fuel ih =>
    intro s h
    obtain ⟨head⟩ := s
    cases head with
    | none => rfl
    | some node =>
      cases node with
      | mk e next =>
        have hlen : secLen next ≤ fuel := by
          simp [secLen, secLinkElems] at h ⊢
          omega
        have := ih ⟨next⟩ hlen
        simp [secPops, Second.List.pop, secElems, secLinkElems, this]

lemma secElems_pushAll {T : Type} :
    ∀ (xs : List T) (s : Second.List T),
      secElems (secPushAll s xs) = xs.reverse ++ secElems s := by
  intro xs
  induction xs with
  | nil => intro s; simp [secPushAll]
  | cons x xs ih =>
    intro s
    have := ih (s.push x)
    simp only [secPushAll, List.foldl_cons] at this ⊢
    simp [this]

@[simp]
lemma firstNode_elem_mk (e : Int) (n : First.Link) :
    (First.Node.mk e n).elem = e := rfl

@[simp]
lemma firstNode_next_mk (e : Int) (n : First.Link) :
    (First.Node.mk e n).next = n := rfl

@[simp]
lemma firstNodeElems_mk (e : Int) (n : First.Link) :
    firstNodeElems (First.Node.mk e n) = e :: firstLinkElems n := by
  simp [firstNodeElems]

@[simp]
lemma firstElems_push (s : First.List) (x : Int) :
    firstElems (s.push x) = x :: firstElems s := by
  simp [firstElems, First.List.push, firstLinkElems]

@[simp]
lemma firstPop_fst (s : First.List) :
    (s.pop).1 = (firstElems s).head? := by
  obtain ⟨head⟩ := s
  cases head with
  | Empty => rfl
  | More node => cases node with
    | mk e next => simp [First.List.pop, firstElems, firstLinkElems]

@[simp]
lemma firstPop_snd (s : First.List) :
    firstElems (s.pop).2 = (firstElems s).tail := by
  obtain ⟨head⟩ := s
  cases head with
  | Empty => rfl
  | More node => cases node with
    | mk e next => simp [First.List.pop, firstElems, firstLinkElems]

lemma firstElems_nil_iff (s : First.List) :
    firstElems s = [] ↔ s.head = First.Link.Empty := by
  obtain ⟨head⟩ := s
  cases head with
  | Empty => simp [firstElems, firstLinkElems]
  | More node => cases node with
    | mk e next => simp [firstElems, firstLinkElems]

lemma firstPops_drain :
    ∀ (fuel : Nat) (s : First.List), (firstElems s).length ≤ fuel →
      firstPops fuel s = (firstElems s, ⟨First.Link.Empty⟩) := by
  intro fuel
  induction fuel with
  | zero =>
    intro s h
    obtain ⟨head⟩ := s
    have : firstElems ⟨head⟩ = [] := List.length_eq_zero.mp (Nat.le_zero.mp h)
    have hh : head = First.Link.Empty := (firstElems_nil_iff ⟨head⟩).mp this
    subst hh
    rfl
  | succ fuel ih =>
    intro s h
    obtain ⟨head⟩ := s
    cases head with
    | Empty => rfl
    | More node =>
      cases node with
      | mk e next =>
        have hlen : (firstElems (⟨next⟩ : First.List)).length ≤ fuel := by
          simp [firstElems, firstLinkElems] at h ⊢
          omega
        have := ih ⟨next⟩ hlen
        simp [firstPops, First.List.pop, firstElems, firstLinkElems, this]

lemma iterRun_drain {T : Type} :
    ∀ (fuel : Nat) (it : Second.Iter T), secLen it.next ≤ fuel →
      iterRun fuel it = (secLinkElems it.next, ⟨none⟩) := by
  intro fuel
  induction fuel with
  | zero =>
    intro it h
    obtain ⟨nx⟩ := it
    cases nx with
    | none => rfl
    | some node =>
      cases node with
      | mk e next => simp [secLen, secLinkElems] at h
  | succ fuel ih =>
    intro it h
    obtain ⟨nx⟩ := it
    cases nx with
    | none => rfl
    | some node =>
      cases node with
      | mk e next =>
        have hlen : secLen next ≤ fuel := by
          simp [secLen, secLinkElems] at h ⊢
          omega
        have := ih ⟨next⟩ hlen
        simp [iterRun, Second.Iter.step, secLinkElems, this]

lemma iterMutRun_drain {T : Type} :
    ∀ (fuel : Nat) (it : Second.IterMut T), secLen it.next ≤ fuel →
      iterMutRun fuel it = (secLinkElems it.next, ⟨none⟩) := by
  intro fuel
  induction fuel with
  | zero =>
    intro it h
    obtain ⟨nx⟩ := it
    cases nx with
    | none => rfl
    | some node =>
      cases node with
      | mk e next => simp [secLen, secLinkElems] at h
  | succ fuel ih =>
    intro it h
    obtain ⟨nx⟩ := it
    cases nx with
    | none => rfl
    | some node =>
      cases node with
      | mk e next =>
        have hlen : secLen next ≤ fuel := by
          simp [secLen, secLinkElems] at h ⊢
          omega
        have := ih ⟨next⟩ hlen
        simp [iterMutRun, Second.IterMut.step, secLinkElems, this]

lemma intoIterRun_eq_pops {T : Type} :
    ∀ (fuel : Nat) (it : Second.IntoIter T),
      intoIterRun fuel it = ((secPops fuel it.fst).1, ⟨(secPops fuel it.fst).2⟩) := by
  intro fuel
  induction fuel with
  | zero => intro it; rfl
  | succ fuel ih =>
    intro it
    obtain ⟨s⟩ := it
    obtain ⟨head⟩ := s
    cases head with
    | none => rfl
    | some node =>
      cases node with
      | mk e next =>
        simp [intoIterRun, secPops, Second.IntoIter.step, Second.List.pop, ih]

lemma secDrop_iff {T : Type} :
    ∀ (k : Nat) (l : Second.Link T),
      Second.dropStep^[k] l = none ↔ secLen l ≤ k := by
  intro k
  induction k with
  | zero =>
    intro l
    cases l with
    | none => simp [secLen, secLinkElems]
    | some node =>
      cases node with
      | mk e next => simp [secLen, secLinkElems]
  | succ k ih =>
    intro l
    cases l with
    | none =>
      rw [Function.iterate_succ_apply]
      have : Second.dropStep (none : Second.Link T) = none := rfl
      rw [this, ih none]
      simp [secLen, secLinkElems]
    | some node =>
      cases node with
      | mk e next =>
        rw [Function.iterate_succ_apply]
        have : Second.dropStep (some (Second.Node.mk e next)) = next := rfl
        rw [this, ih next]
        simp only [secLen, secLinkElems, secNodeElems_mk, List.length_cons]
        omega

lemma firstDrop_iff :
    ∀ (k : Nat) (l : First.Link),
      First.dropStep^[k] l = First.Link.Empty ↔ (firstLinkElems l).length ≤ k := by
  intro k
  induction k with
  | zero =>
    intro l
    cases l with
    | Empty => simp [firstLinkElems]
    | More node =>
      cases node with
      | mk e next => simp [firstLinkElems]
  | succ k ih =>
    intro l
    cases l with
    | Empty =>
      rw [Function.iterate_succ_apply]
      have : First.dropStep First.Link.Empty = First.Link.Empty := rfl
      rw [this, ih First.Link.Empty]
      simp [firstLinkElems]
    | More node =>
      cases node with
      | mk e next =>
        rw [Function.iterate_succ_apply]
        have : First.dropStep (First.Link.More (First.Node.mk e next)) = next := rfl
        rw [this, ih next]
        simp only [firstLinkElems, firstNodeElems_mk, List.length_cons]
        omega

lemma firstElems_pushAll :
    ∀ (xs : List Int) (s : First.List),
      firstElems (firstPushAll s xs) = xs.reverse ++ firstElems s := by
  intro xs
  induction xs with
  | nil => intro s; simp [firstPushAll]
  | cons x xs ih =>
    intro s
    have := ih (s.push x)
    simp only [firstPushAll, List.foldl_cons] at this ⊢
    simp [this]

lemma run_agree :
    ∀ (ops : List Op) (s1 : First.List) (s2 : Second.List Int),
      firstElems s1 = secElems s2 → runFirst s1 ops = runSecond s2 ops := by
  intro ops
  induction ops with
  | nil => intro s1 s2 _; rfl
  | cons op ops ih =>
    intro s1 s2 h
    cases op with
    | push x =>
      simp only [runFirst, runSecond]
      exact ih (s1.push x) (s2.push x) (by simp [h])
    | pop =>
      simp only [runFirst, runSecond]
      have hout : (s1.pop).1 = (s2.pop).1 := by
        rw [firstPop_fst, secPop_fst, h]
      have hrest : firstElems (s1.pop).2 = secElems (s2.pop).2 := by
        rw [firstPop_snd, secPop_snd, h]
      rw [hout, ih (s1.pop).2 (s2.pop).2 hrest]

lemma secElems_new {T : Type} : secElems (Second.List.new : Second.List T) = [] := by
  simp [secElems, Second.List.new, secLinkElems]

lemma firstElems_new : firstElems First.List.new = [] := by
  simp [firstElems, First.List.new, firstLinkElems]

/-! ### Claims -/

/-- Claim C1: for every sequence of push operations followed by pop
operations on a Stack built from `new()`, the pops return the pushed
elements in exact reverse order of insertion (LIFO).  Stated for the
generic `second.rs` list at any element type and for the `first.rs` list:
after pushing the elements of `xs` in order onto a fresh list, draining the
list by repeated `pop` yields exactly `xs.reverse`. -/
theorem pushes_then_pops_lifo {T : Type} (xs : List T) (ys : List Int) :
    (secPops xs.length (secPushAll Second.List.new xs)).1 = xs.reverse ∧
    (firstPops ys.length (firstPushAll First.List.new ys)).1 = ys.reverse := by
  constructor
  · have helems : secElems (secPushAll (Second.List.new : Second.List T) xs) = xs.reverse := by
      rw [secElems_pushAll, secElems_new, List.append_nil]
    have hlen : secLen (secPushAll (Second.List.new : Second.List T) xs).head ≤ xs.length := by
      simp [secLen, secElems] at helems ⊢
      simp [helems]
    rw [secPops_drain xs.length _ hlen]
    simpa using helems
  · have helems : firstElems (firstPushAll First.List.new ys) = ys.reverse := by
      rw [firstElems_pushAll, firstElems_new, List.append_nil]
    have hlen : (firstElems (firstPushAll First.List.new ys)).length ≤ ys.length := by
      simp [helems]
    rw [firstPops_drain ys.length _ hlen]
    simpa using helems

/-- Claim C2: teardown (`Drop`) releases every node iteratively.  The `Drop`
loop body (`dropStep`) is, by definition, a non-recursive function of the
single loop variable `cur_link`, so the auxiliary state is one `Link`
regardless of chain length; iterating it empties the chain in exactly one
iteration per node and never before: for every list and every `k`, after
`k` iterations the chain is exhausted precisely when `k` is at least the
number of nodes.  In particular a list of any length (100,000 included) is
torn down by a flat loop of exactly that many iterations. -/
theorem drop_iterative_teardown {T : Type} (s : Second.List T) (t : First.List) (k : Nat) :
    (Second.dropStep^[k] s.head = none ↔ secLen s.head ≤ k) ∧
    (First.dropStep^[k] t.head = First.Link.Empty ↔ (firstElems t).length ≤ k) :=
  ⟨secDrop_iff k s.head, firstDrop_iff k t.head⟩

/-- Claim C3: `pop` on an empty Stack — in particular on a newly
constructed one — returns the empty indicator `none` as a normal `Option`
value, and `pop` on a non-empty Stack returns `some` of the head node's
element.  Stated for both `second.rs` and `first.rs`. -/
theorem pop_empty_indicator {T : Type} (s : Second.List T) (t : First.List) :
    ((Second.List.new : Second.List T).pop).1 = none ∧
    (s.head = none → (s.pop).1 = none) ∧
    (∀ node, s.head = some node → (s.pop).1 = some node.elem) ∧
    ((First.List.new).pop).1 = none ∧
    (t.head = First.Link.Empty → (t.pop).1 = none) ∧
    (∀ node, t.head = First.Link.More node → (t.pop).1 = some node.elem) := by
  refine ⟨rfl, ?_, ?_, rfl, ?_, ?_⟩
  · intro h
    obtain ⟨head⟩ := s
    subst h
    rfl
  · intro node h
    obtain ⟨head⟩ := s
    subst h
    rfl
  · intro h
    obtain ⟨head⟩ := t
    subst h
    rfl
  · intro node h
    obtain ⟨head⟩ := t
    subst h
    rfl

/-- Witness for C3: on a concrete one-element Stack the non-empty cases
fire and a concrete pop of the head element is obtained. -/
theorem pop_empty_indicator_witness :
    ((⟨some (Second.Node.mk (7 : Int) none)⟩ : Second.List Int).pop).1 = some 7 ∧
    ((⟨First.Link.More (First.Node.mk 7 First.Link.Empty)⟩ : First.List).pop).1 = some 7 := by
  constructor
  · exact (pop_empty_indicator (⟨some (Second.Node.mk (7 : Int) none)⟩ : Second.List Int)
      First.List.new).2.2.1 (Second.Node.mk (7 : Int) none) rfl
  · exact (pop_empty_indicator (Second.List.new : Second.List Int)
      (⟨First.Link.More (First.Node.mk 7 First.Link.Empty)⟩ : First.List)).2.2.2.2.2
      (First.Node.mk 7 First.Link.Empty) rfl

/-- Claim C4: for every Stack state `s` and element `x`, `push x` followed
immediately by `pop` returns `some x` and leaves the Stack in exactly the
prior structural state `s`.  Both sides are definitionally equal in the
embedding of `second.rs`. -/
theorem push_pop_roundtrip {T : Type} (s : Second.List T) (x : T) :
    (s.push x).pop = (some x, s) := rfl

/-- Claim C5: the owning traversal consumes the Stack and yields exactly
the results of repeatedly calling `pop`: its `next` is literally `self.0.pop()`
(first conjunct, definitional), every run of any length yields the same
values as the same number of `pop` calls (second conjunct), a full run
yields every element by value in LIFO order (head first), and after
exhaustion the underlying Stack is empty and one more `next` yields the
empty indicator. -/
theorem into_iter_is_repeated_pop {T : Type} (s : Second.List T) :
    (∀ (it : Second.IntoIter T), it.step = ((it.fst.pop).1, ⟨(it.fst.pop).2⟩)) ∧
    (∀ (fuel : Nat), (intoIterRun fuel s.into_iter).1 = (secPops fuel s).1) ∧
    (intoIterRun (secElems s).length s.into_iter).1 = secElems s ∧
    (intoIterRun (secElems s).length s.into_iter).2.fst.head = none ∧
    ((intoIterRun (secElems s).length s.into_iter).2.step).1 = none := by
  have hrun : ∀ (fuel : Nat),
      intoIterRun fuel s.into_iter = ((secPops fuel s).1, ⟨(secPops fuel s).2⟩) := by
    intro fuel
    exact intoIterRun_eq_pops fuel s.into_iter
  have hdrain : secPops (secElems s).length s = (secElems s, ⟨none⟩) :=
    secPops_drain (secElems s).length s (by simp [secLen, secElems])
  refine ⟨fun it => rfl, fun fuel => by rw [hrun fuel], ?_, ?_, ?_⟩
  · rw [hrun, hdrain]
  · rw [hrun, hdrain]
  · rw [hrun, hdrain]
    rfl

/-- Claim C6: the borrowing traversal `iter()` yields element values in
exactly the order that repeatedly calling `pop()` on the same Stack would
yield them.  Non-mutation is structural in the embedding: `List.iter` takes
the list by value and `Iter.step` neither receives nor produces a `List`,
so the Stack the traversal was built from is untouched by iterating, and
`pop` is here applied to that unchanged Stack. -/
theorem iter_matches_pop_order {T : Type} (s : Second.List T) :
    (iterRun (secElems s).length s.iter).1 = (secPops (secElems s).length s).1 := by
  have hiter := iterRun_drain (secElems s).length s.iter (by simp [secLen, Second.List.iter, secElems])
  have hdrain : secPops (secElems s).length s = (secElems s, ⟨none⟩) :=
    secPops_drain (secElems s).length s (by simp [secLen, secElems])
  rw [hiter, hdrain]
  rfl

/-- Claim C7: the mutable traversal `iter_mut()` visits every element
exactly once — the full run's yield sequence is exactly the element
sequence of the list, so no element is yielded twice and none skipped, for
lists of any length (0, 1, or more) — and production ends exactly when
there is no next node: after the full run the tracked `next` is `None` and
a further `next` call yields the empty indicator. -/
theorem iter_mut_visits_each_once {T : Type} (s : Second.List T) :
    (iterMutRun (secElems s).length s.iter_mut).1 = secElems s ∧
    (iterMutRun (secElems s).length s.iter_mut).2.next = none ∧
    ((iterMutRun (secElems s).length s.iter_mut).2.step).1 = none := by
  have h := iterMutRun_drain (secElems s).length s.iter_mut
    (by simp [secLen, Second.List.iter_mut, secElems])
  refine ⟨?_, ?_, ?_⟩
  · rw [h]; rfl
  · rw [h]
  · rw [h]; rfl

/-- Claim C8: `peek` and `peek_mut` never remove an element and do not
change the Stack's contents — both are read-only observations (type
`List T → Option T`, producing no new list), so a `pop` performed after a
`peek` acts on the very same state and returns exactly the element `peek`
reported; on an empty Stack (head `none`, e.g. a fresh `new()`) both
return the empty indicator. -/
theorem peek_frame {T : Type} (s : Second.List T) :
    s.peek = (s.pop).1 ∧
    s.peek_mut = (s.pop).1 ∧
    (Second.List.new : Second.List T).peek = none ∧
    (Second.List.new : Second.List T).peek_mut = none ∧
    (s.head = none → s.peek = none ∧ s.peek_mut = none) := by
  obtain ⟨head⟩ := s
  cases head with
  | none => exact ⟨rfl, rfl, rfl, rfl, fun _ => ⟨rfl, rfl⟩⟩
  | some node =>
    cases node with
    | mk e next =>
      refine ⟨rfl, rfl, rfl, rfl, ?_⟩
      intro h
      exact absurd h (by simp)

/-- Witness for C8: the empty-Stack clause fired at the concrete empty
state. -/
theorem peek_frame_witness :
    (⟨none⟩ : Second.List Int).peek = none ∧ (⟨none⟩ : Second.List Int).peek_mut = none :=
  (peek_frame (⟨none⟩ : Second.List Int)).2.2.2.2 rfl

/-- Claim C9: mutation through the reference returned by `peek_mut` is
observable: on any non-empty Stack, writing `v` through the returned
reference makes a subsequent `peek` report `v` and a subsequent `pop`
return `some v`, while the rest of the Stack is unchanged. -/
theorem peek_mut_write_observable {T : Type} (s : Second.List T) (v : T)
    (h : s.head ≠ none) :
    (s.peek_mut_write v).peek = some v ∧
    ((s.peek_mut_write v).pop).1 = some v ∧
    ((s.peek_mut_write v).pop).2 = (s.pop).2 := by
  obtain ⟨head⟩ := s
  cases head with
  | none => exact absurd rfl h
  | some node =>
    cases node with
    | mk e next => exact ⟨rfl, rfl, rfl⟩

/-- Witness for C9, the spec's concrete scenario: push 1, 2, 3, set the
head element to 42 through `peek_mut`, then `peek` reports 42 and `pop`
returns 42. -/
theorem peek_mut_write_observable_witness :
    (((((Second.List.new.push 1).push 2).push (3 : Int)).peek_mut_write 42).peek = some 42) ∧
    ((((((Second.List.new.push 1).push 2).push (3 : Int)).peek_mut_write 42).pop).1 = some 42) ∧
    ((((((Second.List.new.push 1).push 2).push (3 : Int)).peek_mut_write 42).pop).2 =
      ((((Second.List.new.push 1).push 2).push (3 : Int)).pop).2) :=
  peek_mut_write_observable (((Second.List.new.push 1).push 2).push (3 : Int)) 42
    (by simp [Second.List.push])

/-- Claim C10: the two implementations agree on their shared interface:
for every sequence of `new`/`push`/`pop` operations over `i32` elements,
the `first.rs` list and the `second.rs` list instantiated at `Int` return
identical `pop` results at every step. -/
theorem first_second_agree (ops : List Op) :
    runFirst First.List.new ops = runSecond Second.List.new ops :=
  run_agree ops First.List.new Second.List.new (by rw [firstElems_new, secElems_new])
